import Mathlib

/-!
Verification of the ola-lang-abi crate: a shallow embedding of its type
system, value codec, function-selector logic and event-log decoding
(src/types.rs, src/values.rs, src/abi.rs, src/event.rs), together with
theorems settling the specification claims about them.

Machine words (`u64`/`usize` in the source) are modelled as `Nat`; the
source never performs arithmetic that could overflow 64 bits on the
values it manipulates (it only moves words around), so no modular
reduction is needed.  Fallible operations return `Except`/`Option`;
a Rust panic (out-of-bounds slice indexing) is modelled as a distinct
error value (`Option.none` for the encoder, explicit `panic`-style
variants elsewhere).
-/

namespace OlaAbi

/-! ## Keccak-256 (tiny_keccak::Keccak::v256, used by Function::method_id) -/

def mask64 : Nat := 2 ^ 64 - 1

/-- Rotate a 64-bit lane left by `n` bits. -/
def rotl64 (x n : Nat) : Nat := ((x <<< n) ||| (x >>> (64 - n))) &&& mask64

/-- One step of the degree-8 LFSR that generates the Keccak round constants:
returns the output bit together with the next register state. -/
def lfsrStep (r : Nat) : Bool × Nat :=
  (r &&& 1 == 1,
    if r &&& 0x80 == 0x80 then ((r <<< 1) ^^^ 0x71) &&& 0xFF else (r <<< 1) &&& 0xFF)

/-- Derive one 64-bit round constant from the LFSR state; returns it together
with the new LFSR state. -/
def roundConstant (r : Nat) : Nat × Nat :=
  (List.range 7).foldl
    (fun (acc : Nat × Nat) j =>
      let s := lfsrStep acc.2
      (if s.1 then acc.1 ^^^ (1 <<< (2 ^ j - 1)) else acc.1, s.2))
    (0, r)

/-- The 24 Keccak-f[1600] round constants. -/
def roundConstants : List Nat :=
  ((List.range 24).foldl
    (fun (acc : List Nat × Nat) _ =>
      let s := roundConstant acc.2
      (acc.1 ++ [s.1], s.2))
    ([], 1)).1

/-- Rho rotation offsets, indexed by lane position `x + 5 * y`, generated by
the coordinate walk of the Keccak specification: starting from lane (1, 0),
the offset laid down at step `t` is `(t+1)*(t+2)/2 mod 64`, after which
`(x, y)` steps to `(y, (2*x + 3*y) % 5)`. -/
def rhoOffsets : List Nat :=
  ((List.range 24).foldl
    (fun (acc : List Nat × Nat × Nat) t =>
      (acc.1.set (acc.2.1 + 5 * acc.2.2) ((t + 1) * (t + 2) / 2 % 64),
        acc.2.2, (2 * acc.2.1 + 3 * acc.2.2) % 5))
    (List.replicate 25 0, 1, 0)).1

/-- One Keccak-f round (theta, rho, pi, chi, iota) on a 25-lane state. -/
def keccakRound (st : List Nat) (rc : Nat) : List Nat :=
  let c := (List.range 5).map (fun x =>
    (st.getD x 0) ^^^ (st.getD (x + 5) 0) ^^^ (st.getD (x + 10) 0) ^^^
      (st.getD (x + 15) 0) ^^^ (st.getD (x + 20) 0))
  let a := (List.range 25).map (fun i =>
    (st.getD i 0) ^^^ (c.getD ((i + 4) % 5) 0) ^^^ rotl64 (c.getD ((i + 1) % 5) 0) 1)
  let b := (List.range 25).map (fun j =>
    let x := j % 5
    let y := j / 5
    let src := (x + 3 * y) % 5 + 5 * x
    rotl64 (a.getD src 0) (rhoOffsets.getD src 0))
  let e := (List.range 25).map (fun j =>
    let x := j % 5
    let y := j / 5
    (b.getD j 0) ^^^
      (((b.getD ((x + 1) % 5 + 5 * y) 0) ^^^ mask64) &&& (b.getD ((x + 2) % 5 + 5 * y) 0)))
  e.set 0 ((e.getD 0 0) ^^^ rc)

/-- The full 24-round Keccak-f[1600] permutation. -/
def keccakF (st : List Nat) : List Nat :=
  roundConstants.foldl keccakRound st

/-- Load 8 bytes into one 64-bit lane, little-endian (byte 0 is least significant). -/
def loadLane (bytes : List Nat) : Nat :=
  bytes.foldr (fun b acc => acc * 256 + b % 256) 0

/-- Keccak pad10*1 with domain byte 0x01 (plain Keccak, not SHA-3) at rate 136. -/
def keccakPad (m : List Nat) : List Nat :=
  let padLen := 136 - m.length % 136
  if padLen == 1 then m ++ [0x81]
  else m ++ [0x01] ++ List.replicate (padLen - 2) 0 ++ [0x80]

/-- XOR one 136-byte block into the state and permute. -/
def absorbBlock (st : List Nat) (block : List Nat) : List Nat :=
  keccakF ((List.range 25).map (fun i => (st.getD i 0) ^^^ loadLane ((block.drop (8 * i)).take 8)))

/-- Absorb the given number of 136-byte blocks from the padded message. -/
def absorbBlocks (st : List Nat) (m : List Nat) (blocks : Nat) : List Nat :=
  match blocks with
  | 0 => st
  | n + 1 => absorbBlocks (absorbBlock st (m.take 136)) (m.drop 136) n

/-- The 8 bytes of a 64-bit lane, least significant first. -/
def laneBytes (lane : Nat) : List Nat :=
  (List.range 8).map (fun i => (lane >>> (8 * i)) % 256)

/-- Keccak-256 digest (32 bytes) of a byte sequence. -/
def keccak256 (m : List Nat) : List Nat :=
  let p := keccakPad m
  let st := absorbBlocks (List.replicate 25 0) p (p.length / 136)
  ((st.take 4).map laneBytes).flatten

/-! ## UTF-8 (Rust str/String semantics used by signature bytes and String::from_utf8) -/

/-- UTF-8 encoding of a single character (the byte sequence Rust's `str::as_bytes`
yields for it). -/
def utf8EncodeChar (c : Char) : List Nat :=
  let n := c.toNat
  if n < 0x80 then [n]
  else if n < 0x800 then [0xC0 ||| (n >>> 6), 0x80 ||| (n &&& 0x3F)]
  else if n < 0x10000 then
    [0xE0 ||| (n >>> 12), 0x80 ||| ((n >>> 6) &&& 0x3F), 0x80 ||| (n &&& 0x3F)]
  else
    [0xF0 ||| (n >>> 18), 0x80 ||| ((n >>> 12) &&& 0x3F),
      0x80 ||| ((n >>> 6) &&& 0x3F), 0x80 ||| (n &&& 0x3F)]

/-- UTF-8 bytes of a string (Rust `String::as_bytes`). -/
def strUtf8 (s : String) : List Nat :=
  (s.data.map utf8EncodeChar).flatten

/-- Whether `b` is a UTF-8 continuation byte (0x80..=0xBF). -/
def utf8Cont (b : Nat) : Bool :=
  0x80 ≤ b && b ≤ 0xBF

/-- UTF-8 validity of a byte sequence, exactly as Rust's `String::from_utf8`
checks it (shortest-form and surrogate-excluding, per the standard table). -/
def validUtf8 : List Nat → Bool
  | [] => true
  | b :: rest =>
    if b < 0x80 then validUtf8 rest
    else if 0xC2 ≤ b && b ≤ 0xDF then
      match rest with
      | b1 :: rest2 => utf8Cont b1 && validUtf8 rest2
      | [] => false
    else if b == 0xE0 then
      match rest with
      | b1 :: b2 :: rest2 => (0xA0 ≤ b1 && b1 ≤ 0xBF) && utf8Cont b2 && validUtf8 rest2
      | _ => false
    else if (0xE1 ≤ b && b ≤ 0xEC) || b == 0xEE || b == 0xEF then
      match rest with
      | b1 :: b2 :: rest2 => utf8Cont b1 && utf8Cont b2 && validUtf8 rest2
      | _ => false
    else if b == 0xED then
      match rest with
      | b1 :: b2 :: rest2 => (0x80 ≤ b1 && b1 ≤ 0x9F) && utf8Cont b2 && validUtf8 rest2
      | _ => false
    else if b == 0xF0 then
      match rest with
      | b1 :: b2 :: b3 :: rest2 =>
        (0x90 ≤ b1 && b1 ≤ 0xBF) && utf8Cont b2 && utf8Cont b3 && validUtf8 rest2
      | _ => false
    else if 0xF1 ≤ b && b ≤ 0xF3 then
      match rest with
      | b1 :: b2 :: b3 :: rest2 => utf8Cont b1 && utf8Cont b2 && utf8Cont b3 && validUtf8 rest2
      | _ => false
    else if b == 0xF4 then
      match rest with
      | b1 :: b2 :: b3 :: rest2 =>
        (0x80 ≤ b1 && b1 ≤ 0x8F) && utf8Cont b2 && utf8Cont b3 && validUtf8 rest2
      | _ => false
    else false

/-! ## Type system (src/types.rs) -/

/-- ABI types (`enum Type` in src/types.rs).  Named `Ty` because `Type` is a
Lean keyword. -/
inductive Ty where
  | u32
  | field
  | hash
  | address
  | bool
  | fixedArray (elem : Ty) (size : Nat)
  | string
  | fields
  | array (elem : Ty)
  | tuple (members : List (String × Ty))

mutual

/-- Canonical textual form of a type (`impl Display for Type`). -/
def Ty.toStr : Ty → String
  | .u32 => "u32"
  | .field => "field"
  | .hash => "hash"
  | .address => "address"
  | .bool => "bool"
  | .string => "string"
  | .fields => "fields"
  | .fixedArray ty size => ty.toStr ++ "[" ++ toString size ++ "]"
  | .array ty => ty.toStr ++ "[]"
  | .tuple tys => "(" ++ String.intercalate "," (Ty.toStrList tys) ++ ")"

/-- Textual forms of tuple members, in order, field names dropped. -/
def Ty.toStrList : List (String × Ty) → List String
  | [] => []
  | m :: rest => m.2.toStr :: Ty.toStrList rest

end

/-! ## Values (src/values.rs) -/

/-- A 4-word (256-bit) container: an address, a hash, or one topic slot
(`FixedArray4` / `AddressValue` / `HashValue` in the source). -/
structure FixedArray4 where
  w0 : Nat
  w1 : Nat
  w2 : Nat
  w3 : Nat
deriving DecidableEq, Repr

/-- ABI decoded values (`enum Value` in src/values.rs).  A Rust `String` is
represented by its UTF-8 byte sequence (always valid UTF-8), so
`Value::String(s)` becomes `Value.string` of `s`'s bytes. -/
inductive Value where
  | u32 (n : Nat)
  | field (n : Nat)
  | address (a : FixedArray4)
  | hash (h : FixedArray4)
  | bool (b : Bool)
  | fixedArray (elems : List Value) (elemTy : Ty)
  | string (bytes : List Nat)
  | fields (words : List Nat)
  | array (elems : List Value) (elemTy : Ty)
  | tuple (items : List (String × Value))

mutual

/-- The type of a value (`Value::type_of`). -/
def Value.typeOf : Value → Ty
  | .u32 _ => .u32
  | .field _ => .field
  | .address _ => .address
  | .hash _ => .hash
  | .bool _ => .bool
  | .fixedArray vs ty => .fixedArray ty vs.length
  | .string _ => .string
  | .fields _ => .fields
  | .array _ ty => .array ty
  | .tuple items => .tuple (Value.typeOfItems items)

/-- Types of named tuple items, names preserved. -/
def Value.typeOfItems : List (String × Value) → List (String × Ty)
  | [] => []
  | item :: rest => (item.1, Value.typeOf item.2) :: Value.typeOfItems rest

end

/-! ## Decoding (Value::decode / Value::decode_from_slice) -/

/-- Decode errors.  The source uses `anyhow` errors; we keep the two
distinguishable classes: running out of input (`bs.get(..)` returning
`None`) and a `String::from_utf8` failure. -/
inductive DecodeError where
  | eof
  | utf8
deriving DecidableEq, Repr

/-- Model of `bs.get(i..i + n)`: the `n`-word slice starting at `i`, or an
end-of-input error when it runs past the end. -/
def slice? (bs : List Nat) (i n : Nat) : Except DecodeError (List Nat) :=
  if i + n ≤ bs.length then .ok ((bs.drop i).take n) else .error .eof

/-- Model of `bs.get(i..i + 1)` followed by `slice[0]`. -/
def word? (bs : List Nat) (i : Nat) : Except DecodeError Nat :=
  (slice? bs i 1).map (fun s => s.getD 0 0)

/-- The `Type::Fields` arm of `Value::decode`: read a length word at absolute
position `start`, then that many payload words; consumed width is
`len + 1`.  (The `Type::String` arm of the source calls `decode` with
`Type::Fields`, which always lands here.) -/
def decodeFields (bs : List Nat) (start : Nat) : Except DecodeError (List Nat × Nat) := do
  let len ← word? bs start
  let ws ← slice? bs (start + 1) len
  .ok (ws, len + 1)

/-- Model of `String::from_utf8` over already-truncated bytes: the byte list
itself when valid UTF-8, an encoding error otherwise. -/
def fromUtf8 (bytes : List Nat) : Except DecodeError (List Nat) :=
  if validUtf8 bytes then .ok bytes else .error .utf8

/-- The element loop shared by the `Type::FixedArray` and `Type::Array` arms
(`(0..size).try_fold` in the source): decode `n` successive elements with
element decoder `d`, starting at relative position `pos`, threading the
accumulated consumed width exactly as the fold does. -/
def decodeLoop (d : Nat → Except DecodeError (Value × Nat)) :
    Nat → Nat → Except DecodeError (List Value × Nat)
  | 0, _ => .ok ([], 0)
  | n + 1, pos => do
    let r ← d pos
    let rest ← decodeLoop d n (pos + r.2)
    .ok (r.1 :: rest.1, r.2 + rest.2)

mutual

/-- `Value::decode(bs, ty, base_addr, at)`: decode one value of type `ty` from
`bs` at relative position `pos` over base address `base`; returns the value
together with the consumed word count. -/
def Value.decode (bs : List Nat) : Ty → Nat → Nat → Except DecodeError (Value × Nat)
  | .u32, base, pos => (word? bs (base + pos)).map (fun w => (.u32 w, 1))
  | .field, base, pos => (word? bs (base + pos)).map (fun w => (.field w, 1))
  | .address, base, pos =>
    (slice? bs (base + pos) 4).map
      (fun s => (.address ⟨s.getD 0 0, s.getD 1 0, s.getD 2 0, s.getD 3 0⟩, 4))
  | .hash, base, pos =>
    (slice? bs (base + pos) 4).map
      (fun s => (.hash ⟨s.getD 0 0, s.getD 1 0, s.getD 2 0, s.getD 3 0⟩, 4))
  | .bool, base, pos => (word? bs (base + pos)).map (fun w => (.bool (w == 1), 1))
  | .fixedArray ty n, base, pos =>
    (decodeLoop (fun p => Value.decode bs ty base p) n pos).map
      (fun r => (.fixedArray r.1 ty, r.2))
  | .string, base, pos => do
    let r ← decodeFields bs (base + pos)
    let s ← fromUtf8 (r.1.map (fun b => b % 256))
    .ok (.string s, r.2)
  | .fields, base, pos => (decodeFields bs (base + pos)).map (fun r => (.fields r.1, r.2))
  | .array ty, base, pos => do
    let len ← word? bs (base + pos)
    (decodeLoop (fun p => Value.decode bs ty (base + pos + 1) p) len 0).map
      (fun r => (.array r.1 ty, r.2))
  | .tuple members, base, pos =>
    (Value.decodeTuple bs members base pos).map (fun r => (.tuple r.1, r.2))

/-- The `Type::Tuple` arm's fold: decode each member in order, threading the
accumulated consumed width, keeping member names. -/
def Value.decodeTuple (bs : List Nat) :
    List (String × Ty) → Nat → Nat → Except DecodeError (List (String × Value) × Nat)
  | [], _, _ => .ok ([], 0)
  | m :: rest, base, pos => do
    let r ← Value.decode bs m.2 base pos
    let tail ← Value.decodeTuple bs rest base (pos + r.2)
    .ok ((m.1, r.1) :: tail.1, r.2 + tail.2)

end

/-- The fold inside `Value::decode_from_slice`: decode each requested type in
order against the shared cursor `pos`. -/
def Value.decodeSeq (bs : List Nat) : List Ty → Nat → Except DecodeError (List Value)
  | [], _ => .ok []
  | ty :: rest, pos => do
    let r ← Value.decode bs ty 0 pos
    let vs ← Value.decodeSeq bs rest (pos + r.2)
    .ok (r.1 :: vs)

/-- `Value::decode_from_slice(bs, tys)`. -/
def Value.decodeFromSlice (bs : List Nat) (tys : List Ty) : Except DecodeError (List Value) :=
  Value.decodeSeq bs tys 0

/-! ## Encoding (Value::encode)

The source encoder writes through `buf[i] = v` and
`buf[a..b].copy_from_slice(..)`, both of which panic when out of range;
`Option.none` models that abort. -/

/-- Model of `buf[i] = v`: in-range single-element write, panic otherwise. -/
def setAt (l : List Nat) (i v : Nat) : Option (List Nat) :=
  if i < l.length then some (l.set i v) else none

/-- Model of `buf[i..i + src.len()].copy_from_slice(src)`: in-range block
write, panic otherwise. -/
def copyInto (l : List Nat) (i : Nat) (src : List Nat) : Option (List Nat) :=
  if i + src.length ≤ l.length then some (l.take i ++ src ++ l.drop (i + src.length)) else none

mutual

/-- The `for value in values` loop of `Value::encode`, threading the buffer. -/
def Value.encodeInto : List Value → List Nat → Option (List Nat)
  | [], buf => some buf
  | v :: rest, buf => do
    let buf2 ← Value.encodeOne v buf
    Value.encodeInto rest buf2

/-- One iteration of the `Value::encode` loop: append the encoding of one
value to the buffer, mirroring each `match` arm of the source (including
its out-of-bounds writes, which surface as `none`). -/
def Value.encodeOne : Value → List Nat → Option (List Nat)
  | .u32 i, buf => some (buf ++ [i])
  | .field i, buf => some (buf ++ [i])
  | .address a, buf => copyInto (buf ++ List.replicate 4 0) buf.length [a.w0, a.w1, a.w2, a.w3]
  | .hash h, buf => copyInto (buf ++ List.replicate 4 0) buf.length [h.w0, h.w1, h.w2, h.w3]
  | .bool b, buf =>
    let buf2 := buf ++ [0]
    if b then setAt buf2 (buf.length + 1) 1 else some buf2
  | .fixedArray vs _, buf => (Value.encodeInto vs []).map (fun bytes => buf ++ bytes)
  | .tuple items, buf => (Value.encodeItems items []).map (fun bytes => buf ++ bytes)
  | .string value, buf => copyInto (buf ++ [value.length]) (buf.length + 1) value
  | .fields value, buf => copyInto (buf ++ [value.length]) (buf.length + 1) value
  | .array vs _, buf => (Value.encodeInto vs []).map (fun bytes => buf ++ [vs.length] ++ bytes)

/-- The `Value::Tuple` arm drops the names and encodes the member values in
order (`values.iter().cloned().map(|(_, value)| value)` then `encode`). -/
def Value.encodeItems : List (String × Value) → List Nat → Option (List Nat)
  | [], buf => some buf
  | item :: rest, buf => do
    let buf2 ← Value.encodeOne item.2 buf
    Value.encodeItems rest buf2

end

/-- `Value::encode(values)`: the emitted word stream, or `none` when the
source would panic. -/
def Value.encode (values : List Value) : Option (List Nat) :=
  Value.encodeInto values []

/-! ## Params and functions (src/abi.rs; Param itself lives in the crate's
params.rs, which is not among the provided sources) -/

/-- Modelled from the spec: `Param` is `{name, type, indexed: Option<bool>}`
(src/params.rs is absent from the provided sources); `indexed` is only
meaningful for event inputs and defaults to not-indexed when absent. -/
structure Param where
  name : String
  type_ : Ty
  indexed : Option Bool

/-- Modelled from the spec: `DecodedParams` pairs each input `Param` with its
decoded `Value`, in declared order (built via `DecodedParams::from`). -/
abbrev DecodedParams := List (Param × Value)

/-- Contract function definition (`struct Function` in src/abi.rs). -/
structure Function where
  name : String
  inputs : List Param
  outputs : List Param

/-- `Function::signature()`: `"<name>(<comma-joined input type strings>)"`. -/
def Function.signature (f : Function) : String :=
  f.name ++ "(" ++ String.intercalate "," (f.inputs.map (fun p => p.type_.toStr)) ++ ")"

/-- `Function::method_id()`: Keccak-256 over the UTF-8 bytes of the signature,
then `u32::from_le_bytes` of the first 4 digest bytes, widened to a word. -/
def Function.methodId (f : Function) : Nat :=
  let out := keccak256 (strUtf8 f.signature)
  out.getD 0 0 + out.getD 1 0 * 256 + out.getD 2 0 * 65536 + out.getD 3 0 * 16777216

/-- `Function::decode_input_from_slice`: decode the words against the declared
input types and zip them with the declared inputs. -/
def Function.decodeInputFromSlice (f : Function) (input : List Nat) :
    Except DecodeError DecodedParams :=
  (Value.decodeFromSlice input (f.inputs.map (fun p => p.type_))).map
    (fun vs => (f.inputs.zip vs : DecodedParams))

/-- Contract ABI table (`struct Abi` in src/abi.rs; the provided abi.rs
revision holds functions only). -/
structure Abi where
  functions : List Function

/-- Errors of `Abi::decode_input_from_slice`.  `panic` models the
out-of-bounds indexing aborts (`input[0]` on an empty slice and
`&input[2..]` on a slice shorter than 2); `notFound` is the
"ABI function not found" error; `decodeFailed` propagates codec errors. -/
inductive AbiError where
  | panic
  | notFound
  | decodeFailed (e : DecodeError)
deriving DecidableEq, Repr

/-- `Abi::decode_input_from_slice(input)`: look up `input[0]` among the
functions' method ids, then decode `input[2..]` against the matched
function's input types. -/
def Abi.decodeInputFromSlice (abi : Abi) (input : List Nat) :
    Except AbiError (Function × DecodedParams) :=
  match input.head? with
  | none => .error .panic
  | some w0 =>
    match abi.functions.find? (fun f => f.methodId == w0) with
    | none => .error .notFound
    | some f =>
      if 2 ≤ input.length then
        match f.decodeInputFromSlice (input.drop 2) with
        | .ok d => .ok (f, d)
        | .error e => .error (.decodeFailed e)
      else .error .panic

/-! ## Events (src/event.rs) -/

/-- Contract event definition (`struct Event` in src/event.rs). -/
structure Event where
  name : String
  inputs : List Param
  anonymous : Bool

/-- Errors of `Event::decode_data_from_slice`, one variant per `anyhow!` site
plus propagated codec errors. -/
inductive EventError where
  | missingTopic
  | decodeFailed (e : DecodeError)
  | insufficientTopics
  | insufficientData
  | emptyDecode
deriving DecidableEq, Repr

/-- `Event::is_encoded_to_hash`: whether an indexed input of this type is
stored in its topic slot as an opaque hash.  (The source also lists a
`U256` variant that does not exist in the provided types.rs; it is omitted
here.) -/
def Event.isEncodedToHash : Ty → Bool
  | .fixedArray _ _ => true
  | .array _ => true
  | .fields => true
  | .string => true
  | .tuple _ => true
  | _ => false

/-- Whether a type is one of the narrow scalars compared against in the
`input.type_ == Type::U32 || == Type::Bool || == Type::Field` chain. -/
def Ty.isNarrowScalar : Ty → Bool
  | .u32 => true
  | .bool => true
  | .field => true
  | _ => false

/-- Reconstruct the value of one indexed input from its 4-word topic slot,
mirroring the if/else chain in `Event::decode_data_from_slice`. -/
def Event.decodeTopicValue (input : Param) (val : FixedArray4) : Except EventError Value :=
  if Event.isEncodedToHash input.type_ then .ok (.hash val)
  else if input.type_.isNarrowScalar then
    match Value.decodeFromSlice [val.w3] [input.type_] with
    | .error e => .error (.decodeFailed e)
    | .ok vs =>
      match vs.head? with
      | none => .error .emptyDecode
      | some v => .ok v
  else
    match Value.decodeFromSlice [val.w0, val.w1, val.w2, val.w3] [input.type_] with
    | .error e => .error (.decodeFailed e)
    | .ok vs =>
      match vs.head? with
      | none => .error .emptyDecode
      | some v => .ok v

/-- The `for input in inputs` loop of `Event::decode_data_from_slice`:
indexed inputs pop the topics queue, non-indexed inputs pop the
already-decoded data queue. -/
def Event.decodeInputsLoop :
    List Param → List FixedArray4 → List Value → Except EventError (List (Param × Value))
  | [], _, _ => .ok []
  | input :: rest, topicsQ, dataQ =>
    if input.indexed.getD false then
      match topicsQ with
      | [] => .error .insufficientTopics
      | val :: topicsRest => do
        let v ← Event.decodeTopicValue input val
        let tail ← Event.decodeInputsLoop rest topicsRest dataQ
        .ok ((input, v) :: tail)
    else
      match dataQ with
      | [] => .error .insufficientData
      | v :: dataRest => do
        let tail ← Event.decodeInputsLoop rest topicsQ dataRest
        .ok ((input, v) :: tail)

/-- The topic-stripping step of `Event::decode_data_from_slice`: models
`topics.get(1..).ok_or_else(...)` guarded by `!self.anonymous`. -/
def Event.stripEventTopic (anonymous : Bool) (topics : List FixedArray4) :
    Except EventError (List FixedArray4) :=
  if anonymous then .ok topics
  else
    match topics with
    | [] => .error .missingTopic
    | _ :: rest => .ok rest

/-- `Event::decode_data_from_slice(topics, data)`: strip the event topic when
not anonymous, decode `data` against the non-indexed input types, then
reconcile indexed and non-indexed inputs in declared order. -/
def Event.decodeDataFromSlice (e : Event) (topics : List FixedArray4) (data : List Nat) :
    Except EventError DecodedParams :=
  match Event.stripEventTopic e.anonymous topics with
  | .error err => .error err
  | .ok topicsQ =>
    match Value.decodeFromSlice data
        ((e.inputs.filter (fun i => !(i.indexed.getD false))).map (fun i => i.type_)) with
    | .error err => .error (.decodeFailed err)
    | .ok dataQ =>
      (Event.decodeInputsLoop e.inputs topicsQ dataQ).map (fun l => (l : DecodedParams))

/-! ## Further definitions used by the claim theorems -/

/-- The narrow-scalar reconstruction the claim describes: the scalar value
read from a single word, matching what `Value::decode` produces for a
1-word stream of that scalar type. -/
def narrowScalarOfWord : Ty → Nat → Value
  | .u32, w => .u32 w
  | .bool, w => .bool (w == 1)
  | .field, w => .field w
  | _, w => .u32 w

/-- How many of the given event inputs are indexed (position bookkeeping for
the topics queue). -/
def countIndexed (inputs : List Param) : Nat :=
  (inputs.filter (fun p => p.indexed.getD false)).length

/-! ## Concrete fixtures used by the claim theorems -/

/-- The function `f(n: u32, x: tuple(a: u32, b: string))` from the signature
formatting example (mirrors the `abi_json_work` test fixture). -/
def fExample : Function :=
  ⟨"f", [⟨"n", .u32, none⟩, ⟨"x", .tuple [("a", .u32), ("b", .string)], none⟩], []⟩

/-- The function `funname(address, u32[2])` from the selector example
(mirrors the `test_function` fixture in src/abi.rs). -/
def funnameFunction : Function :=
  ⟨"funname", [⟨"", .address, none⟩, ⟨"x", .fixedArray .u32 2, none⟩], []⟩

/-- Same name and ordered input types as `funnameFunction`, but different
parameter names, indexed flags and outputs. -/
def funnameVariant : Function :=
  ⟨"funname", [⟨"addr", .address, some true⟩, ⟨"arr2", .fixedArray .u32 2, none⟩],
    [⟨"res", .bool, none⟩]⟩

/-- The nested round-trip value `[[1, 2], [3]] : u32[][2]` from the decode
scenario. -/
def nestedValue : Value :=
  .fixedArray [.array [.u32 1, .u32 2] .u32, .array [.u32 3] .u32] (.array .u32)

/-- What the decoder actually returns for `nestedValue`'s encoding: the
second inner array picks up the stray element word `1` as its length. -/
def nestedValueMisdecoded : Value :=
  .fixedArray [.array [.u32 1, .u32 2] .u32, .array [.u32 1, .u32 3] .u32] (.array .u32)


/-- Event-scenario fixtures (mirroring the `test_decode_data_from_slice`
test in src/event.rs). -/
def paramX : Param := ⟨"x", .u32, none⟩

def paramY : Param := ⟨"y", .u32, some true⟩

def paramX1 : Param := ⟨"x1", .u32, none⟩

def paramY1 : Param := ⟨"y1", .u32, some true⟩

def paramS : Param := ⟨"s", .string, none⟩

def evtTest : Event := ⟨"Test", [paramX, paramY, paramX1, paramY1, paramS], false⟩

def topicsTest : List FixedArray4 :=
  [⟨13964306673005018703, 10894260269595496822, 17848333703059337299, 3412739309839435658⟩,
   ⟨0, 0, 0, 10⟩, ⟨0, 0, 0, 11⟩]

/-! ## Small monad-reduction helpers for Except -/

theorem ok_bind {ε α β : Type} {x : α} (g : α → Except ε β) :
    (Except.ok x >>= g : Except ε β) = g x := rfl

theorem error_bind {ε α β : Type} {msg : ε} (g : α → Except ε β) :
    (Except.error msg >>= g : Except ε β) = Except.error msg := rfl

theorem pure_bind_except {ε α β : Type} {x : α} (g : α → Except ε β) :
    (pure x >>= g : Except ε β) = g x := rfl

/-! ## Claim theorems: encoder and selector behaviour -/

/-- C1: the round-trip `decode_from_slice(encode([v]), [T]) = [v]` FAILS on
the code as written.  Witnessed at `v = [[1,2],[3]] : u32[][2]`: the
encoding is `[2,1,2,1,3]`, but decoding it back yields `[[1,2],[1,3]]`
because the `Type::Array` decode arm does not count the length-prefix
word it consumed. -/
theorem claim_C1 :
    Value.encode [nestedValue] = some [2, 1, 2, 1, 3] ∧
    Value.decodeFromSlice [2, 1, 2, 1, 3] [.fixedArray (.array .u32) 2] ≠
      .ok [nestedValue] ∧
    Value.decodeFromSlice [2, 1, 2, 1, 3] [.fixedArray (.array .u32) 2] =
      .ok [nestedValueMisdecoded] := by
  refine ⟨rfl, ?_, rfl⟩
  intro h
  rw [show Value.decodeFromSlice [2, 1, 2, 1, 3] [.fixedArray (.array .u32) 2] =
      .ok [nestedValueMisdecoded] from rfl] at h
  simp [nestedValueMisdecoded, nestedValue] at h

/-- C2: the consumed-word count returned for a decoded `Array` does NOT
include the array's length-prefix word (decoding `[2,5,6]` as `u32[]`
reports 2 consumed words, not 3), so the nested scenario
`[String, U32, FixedArray(Array(U32), 2)]` over
`[5,111,108,97,118,109,12,2,1,2,1,3]` mis-decodes its third value to
`[[1,2],[1,3]]` instead of the claimed `[[1,2],[3]]`. -/
theorem claim_C2 :
    Value.decode [2, 5, 6] (.array .u32) 0 0 = .ok (.array [.u32 5, .u32 6] .u32, 2) ∧
    Value.decodeFromSlice [5, 111, 108, 97, 118, 109, 12, 2, 1, 2, 1, 3]
      [.string, .u32, .fixedArray (.array .u32) 2] =
      .ok [.string [111, 108, 97, 118, 109], .u32 12, nestedValueMisdecoded] ∧
    Value.decodeFromSlice [5, 111, 108, 97, 118, 109, 12, 2, 1, 2, 1, 3]
      [.string, .u32, .fixedArray (.array .u32) 2] ≠
      .ok [.string [111, 108, 97, 118, 109], .u32 12, nestedValue] := by
  refine ⟨rfl, rfl, ?_⟩
  intro h
  rw [show Value.decodeFromSlice [5, 111, 108, 97, 118, 109, 12, 2, 1, 2, 1, 3]
      [.string, .u32, .fixedArray (.array .u32) 2] =
      .ok [.string [111, 108, 97, 118, 109], .u32 12, nestedValueMisdecoded] from rfl] at h
  simp [nestedValueMisdecoded, nestedValue] at h

/-- C4: encoding `Bool(true)` does NOT emit the word `1`: the encoder writes
`buf[start + 1] = 1` after resizing the buffer to length `start + 1`, an
out-of-bounds write, i.e. a panic (modelled as `none`).  `Bool(false)`
encodes to `[0]` as claimed. -/
theorem claim_C4 :
    Value.encode [.bool true] = none ∧ Value.encode [.bool false] = some [0] :=
  ⟨rfl, rfl⟩

set_option maxRecDepth 100000 in
/-- C5: `method_id` of `funname(address, u32[2])` is `0x09ff46f1`, NOT the
claimed `0xf146ff09`: the digest's first four bytes are
`f1 46 ff 09`, and `u32::from_le_bytes` reads them with byte 0 least
significant, while the claimed value (and the repo's own
`function_method_id` test) corresponds to a big-endian reading.  The
determinism part of the claim does hold: a function with the same name
and ordered input types but different parameter names and outputs gets
the same selector. -/
theorem claim_C5 :
    Function.methodId funnameFunction = 0x09ff46f1 ∧
    Function.methodId funnameFunction ≠ 0xf146ff09 ∧
    Function.methodId funnameVariant = Function.methodId funnameFunction := by
  have h : Function.methodId funnameFunction = 0x09ff46f1 := by decide
  refine ⟨h, by rw [h]; decide, ?_⟩
  simp only [Function.methodId]
  rw [show funnameVariant.signature = funnameFunction.signature from rfl]

/-- C6: an input stream whose first word matches no function's method id
decodes to the not-found lookup error (never a panic), and when a
function does match, the result is computed from `words[2..]` decoded
against that function's input types — the word at index 1 is an arbitrary
`n` that the decode step never consumes. -/
theorem claim_C6 :
    (∀ (abi : Abi) (w : Nat) (rest : List Nat),
      (∀ f ∈ abi.functions, f.methodId ≠ w) →
      abi.decodeInputFromSlice (w :: rest) = .error .notFound) ∧
    (∀ (abi : Abi) (w n : Nat) (rest : List Nat) (f : Function),
      abi.functions.find? (fun g => g.methodId == w) = some f →
      abi.decodeInputFromSlice (w :: n :: rest) =
        match f.decodeInputFromSlice rest with
        | .ok d => .ok (f, d)
        | .error e => .error (.decodeFailed e)) := by
  constructor
  · intro abi w rest hnone
    have hfind : abi.functions.find? (fun g => g.methodId == w) = none := by
      rw [List.find?_eq_none]
      intro f hf
      simpa using hnone f hf
    simp [Abi.decodeInputFromSlice, hfind]
  · intro abi w n rest f hfind
    simp [Abi.decodeInputFromSlice, hfind]

set_option maxRecDepth 100000 in
/-- C6 witness: the empty table rejects `[0]` with the lookup error, and a
table holding `funname(address, u32[2])` dispatches
`[0x09ff46f1, 5]` to that function, decoding `[]` against its input
types (which fails with end-of-input, showing the decode step ran). -/
theorem claim_C6_witness :
    (Abi.mk []).decodeInputFromSlice [0] = .error .notFound ∧
    (Abi.mk [funnameFunction]).decodeInputFromSlice [0x09ff46f1, 5] =
      .error (.decodeFailed .eof) := by
  constructor
  · exact claim_C6.1 (Abi.mk []) 0 [] (by intro f hf; cases hf)
  · have h2 := claim_C6.2 (Abi.mk [funnameFunction]) 0x09ff46f1 5 [] funnameFunction rfl
    rw [h2]
    rfl

/-- C7: the `Type::String` decode arm only ever returns a string whose
(word-truncated) byte sequence passed UTF-8 validation, and when the
collected bytes are not valid UTF-8 it fails with the textual-encoding
error. -/
theorem claim_C7 :
    (∀ (bs : List Nat) (base pos : Nat) (v : Value) (c : Nat),
      Value.decode bs .string base pos = .ok (v, c) →
      ∃ bytes, v = .string bytes ∧ validUtf8 bytes = true) ∧
    (∀ (bs : List Nat) (base pos : Nat) (r : List Nat × Nat),
      decodeFields bs (base + pos) = .ok r →
      validUtf8 (r.1.map (fun b => b % 256)) = false →
      Value.decode bs .string base pos = .error .utf8) := by
  constructor
  · intro bs base pos v c h
    rw [Value.decode] at h
    cases hf : decodeFields bs (base + pos) with
    | error e => rw [hf, error_bind] at h; cases h
    | ok r =>
      rw [hf, ok_bind] at h
      by_cases hv : validUtf8 (r.1.map (fun b => b % 256))
      · rw [show fromUtf8 (r.1.map (fun b => b % 256)) =
            .ok (r.1.map (fun b => b % 256)) from by simp [fromUtf8, hv], ok_bind] at h
        cases h
        exact ⟨r.1.map (fun b => b % 256), rfl, hv⟩
      · rw [show fromUtf8 (r.1.map (fun b => b % 256)) = .error .utf8 from by
            simp only [fromUtf8, if_neg]; simp [hv], error_bind] at h
        cases h
  · intro bs base pos r hf hv
    rw [Value.decode, hf, ok_bind]
    rw [show fromUtf8 (r.1.map (fun b => b % 256)) = .error .utf8 from by
      simp [fromUtf8, hv], error_bind]

/-- C7 witness: decoding `[1, 255]` as a string fails with the UTF-8 error
(byte `0xFF` is invalid), while the string returned for `[1, 65]` carries
a validated byte sequence. -/
theorem claim_C7_witness :
    (∃ bytes, Value.string [65] = .string bytes ∧ validUtf8 bytes = true) ∧
    Value.decode [1, 255] .string 0 0 = .error .utf8 :=
  ⟨claim_C7.1 [1, 65] 0 0 (.string [65]) 2 rfl,
   claim_C7.2 [1, 255] 0 0 ([255], 2) rfl rfl⟩

/-- C8: `signature()` formats `f(n: u32, x: tuple(a: u32, b: string))` as
`"f(u32,(u32,string))"`, and the canonical type grammar prints each
variant as claimed (tuples drop member names). -/
theorem claim_C8 :
    Function.signature fExample = "f(u32,(u32,string))" ∧
    Ty.toStr .u32 = "u32" ∧ Ty.toStr .field = "field" ∧ Ty.toStr .hash = "hash" ∧
    Ty.toStr .address = "address" ∧ Ty.toStr .bool = "bool" ∧ Ty.toStr .string = "string" ∧
    Ty.toStr .fields = "fields" ∧ Ty.toStr (.fixedArray .u32 2) = "u32[2]" ∧
    Ty.toStr (.array (.fixedArray .bool 3)) = "bool[3][]" ∧
    Ty.toStr (.tuple [("a", .u32), ("b", .string)]) = "(u32,string)" :=
  ⟨rfl, rfl, rfl, rfl, rfl, rfl, rfl, rfl, rfl, rfl, rfl⟩

/-! ## Stream-extension lemmas: decoding never looks past what it consumes -/

theorem map_ok_iff {ε α β : Type} (e : Except ε α) (f : α → β) (b : β) :
    e.map f = .ok b ↔ ∃ a, e = .ok a ∧ f a = b := by
  cases e <;> simp [Except.map]

theorem slice?_append {bs : List Nat} {i n : Nat} {s : List Nat} (ex : List Nat)
    (h : slice? bs i n = .ok s) : slice? (bs ++ ex) i n = .ok s := by
  unfold slice? at h ⊢
  split at h
  · rename_i hle
    cases h
    rw [if_pos (by simp only [List.length_append]; omega)]
    have h2 : n - (bs.drop i).length = 0 := by rw [List.length_drop]; omega
    rw [List.drop_append_eq_append_drop, List.take_append_eq_append_take, h2,
      List.take_zero, List.append_nil]
  · cases h

theorem word?_append {bs : List Nat} {i : Nat} {w : Nat} (ex : List Nat)
    (h : word? bs i = .ok w) : word? (bs ++ ex) i = .ok w := by
  unfold word? at h ⊢
  rcases (map_ok_iff _ _ _).mp h with ⟨s, hs, hf⟩
  rw [slice?_append ex hs]
  exact (map_ok_iff _ _ _).mpr ⟨s, rfl, hf⟩

theorem decodeFields_append {bs : List Nat} {start : Nat} {r : List Nat × Nat} (ex : List Nat)
    (h : decodeFields bs start = .ok r) : decodeFields (bs ++ ex) start = .ok r := by
  unfold decodeFields at h ⊢
  cases hw : word? bs start with
  | error e => rw [hw, error_bind] at h; cases h
  | ok len =>
    rw [hw, ok_bind] at h
    rw [word?_append ex hw, ok_bind]
    cases hs : slice? bs (start + 1) len with
    | error e => rw [hs, error_bind] at h; cases h
    | ok ws => rw [hs, ok_bind] at h; rw [slice?_append ex hs, ok_bind]; exact h

theorem decodeLoop_mono {d d2 : Nat → Except DecodeError (Value × Nat)}
    (hd : ∀ p r, d p = .ok r → d2 p = .ok r) :
    ∀ (n pos : Nat) (r : List Value × Nat),
      decodeLoop d n pos = .ok r → decodeLoop d2 n pos = .ok r := by
  intro n
  induction n with
  | zero => intro pos r h; exact h
  | succ n ih =>
    intro pos r h
    rw [decodeLoop] at h ⊢
    cases h1 : d pos with
    | error e => rw [h1, error_bind] at h; cases h
    | ok r1 =>
      rw [h1, ok_bind] at h
      rw [hd pos r1 h1, ok_bind]
      cases h2 : decodeLoop d n (pos + r1.2) with
      | error e => rw [h2, error_bind] at h; cases h
      | ok r2 => rw [h2, ok_bind] at h; rw [ih _ _ h2, ok_bind]; exact h

theorem decode_append (bs ex : List Nat) :
    ∀ (ty : Ty) (base pos : Nat),
      (∀ r, Value.decode bs ty base pos = .ok r → Value.decode (bs ++ ex) ty base pos = .ok r) := by
  refine Value.decode.induct bs
    (fun ty base pos => ∀ r, Value.decode bs ty base pos = .ok r →
      Value.decode (bs ++ ex) ty base pos = .ok r)
    (fun ms base pos => ∀ r, Value.decodeTuple bs ms base pos = .ok r →
      Value.decodeTuple (bs ++ ex) ms base pos = .ok r)
    ?_ ?_ ?_ ?_ ?_ ?_ ?_ ?_ ?_ ?_ ?_ ?_
  · intro base pos r h
    rw [Value.decode] at h ⊢
    rcases (map_ok_iff _ _ _).mp h with ⟨w, hw, hf⟩
    rw [word?_append ex hw]
    simp [Except.map, hf]
  · intro base pos r h
    rw [Value.decode] at h ⊢
    rcases (map_ok_iff _ _ _).mp h with ⟨w, hw, hf⟩
    rw [word?_append ex hw]
    simp [Except.map, hf]
  · intro base pos r h
    rw [Value.decode] at h ⊢
    rcases (map_ok_iff _ _ _).mp h with ⟨s, hs, hf⟩
    rw [slice?_append ex hs]
    exact (map_ok_iff _ _ _).mpr ⟨s, rfl, hf⟩
  · intro base pos r h
    rw [Value.decode] at h ⊢
    rcases (map_ok_iff _ _ _).mp h with ⟨s, hs, hf⟩
    rw [slice?_append ex hs]
    exact (map_ok_iff _ _ _).mpr ⟨s, rfl, hf⟩
  · intro base pos r h
    rw [Value.decode] at h ⊢
    rcases (map_ok_iff _ _ _).mp h with ⟨w, hw, hf⟩
    rw [word?_append ex hw]
    simp [Except.map, hf]
  · intro ty n base pos ih r h
    rw [Value.decode] at h ⊢
    rcases (map_ok_iff _ _ _).mp h with ⟨lr, hl, hf⟩
    rw [decodeLoop_mono (fun p r hp => ih p r hp) n pos lr hl]
    simp [Except.map, hf]
  · intro base pos r h
    rw [Value.decode] at h ⊢
    cases hf : decodeFields bs (base + pos) with
    | error e => rw [hf, error_bind] at h; cases h
    | ok fr =>
      rw [hf, ok_bind] at h
      rw [decodeFields_append ex hf, ok_bind]
      exact h
  · intro base pos r h
    rw [Value.decode] at h ⊢
    rcases (map_ok_iff _ _ _).mp h with ⟨fr, hf, hpack⟩
    rw [decodeFields_append ex hf]
    simp [Except.map, hpack]
  · intro ty base pos ih r h
    rw [Value.decode] at h ⊢
    cases hw : word? bs (base + pos) with
    | error e => rw [hw, error_bind] at h; cases h
    | ok len =>
      rw [hw, ok_bind] at h
      rw [word?_append ex hw, ok_bind]
      rcases (map_ok_iff _ _ _).mp h with ⟨lr, hl, hpack⟩
      rw [decodeLoop_mono (fun p r hp => ih p r hp) len 0 lr hl]
      simp [Except.map, hpack]
  · intro members base pos ih r h
    rw [Value.decode] at h ⊢
    rcases (map_ok_iff _ _ _).mp h with ⟨tr, ht, hpack⟩
    rw [ih tr ht]
    simp [Except.map, hpack]
  · intro base pos r h
    exact h
  · intro m rest base pos ih1 ih2 r h
    rw [Value.decodeTuple] at h ⊢
    cases h1 : Value.decode bs m.2 base pos with
    | error e => rw [h1, error_bind] at h; cases h
    | ok r1 =>
      rw [h1, ok_bind] at h
      rw [ih1 r1 h1, ok_bind]
      cases h2 : Value.decodeTuple bs rest base (pos + r1.2) with
      | error e => rw [h2, error_bind] at h; cases h
      | ok r2 => rw [h2, ok_bind] at h; rw [ih2 r1 r2 h2, ok_bind]; exact h

theorem decodeSeq_append (bs ex : List Nat) :
    ∀ (tys : List Ty) (pos : Nat) (vs : List Value),
      Value.decodeSeq bs tys pos = .ok vs → Value.decodeSeq (bs ++ ex) tys pos = .ok vs := by
  intro tys
  induction tys with
  | nil => intro pos vs h; exact h
  | cons ty rest ih =>
    intro pos vs h
    rw [Value.decodeSeq] at h ⊢
    cases h1 : Value.decode bs ty 0 pos with
    | error e => rw [h1, error_bind] at h; cases h
    | ok r1 =>
      rw [h1, ok_bind] at h
      rw [decode_append bs ex ty 0 pos r1 h1, ok_bind]
      cases h2 : Value.decodeSeq bs rest (pos + r1.2) with
      | error e => rw [h2, error_bind] at h; cases h
      | ok vs2 => rw [h2, ok_bind] at h; rw [ih _ _ h2, ok_bind]; exact h

/-- C10: `decode_from_slice` never requires the stream to be fully consumed:
whatever a type list decodes to on a stream, it decodes to the same values
with any trailing words appended, and the empty type list succeeds with no
values on every stream. -/
theorem claim_C10 :
    (∀ (tys : List Ty) (ws ex : List Nat) (vs : List Value),
      Value.decodeFromSlice ws tys = .ok vs → Value.decodeFromSlice (ws ++ ex) tys = .ok vs) ∧
    (∀ ws : List Nat, Value.decodeFromSlice ws [] = .ok []) :=
  ⟨fun tys ws ex vs h => decodeSeq_append ws ex tys 0 vs h, fun _ => rfl⟩

/-- C10 witness: `[7]` decodes as `[U32]` to `[7]`, and so does `[7, 9]`;
the empty type list accepts the non-empty stream `[3]`. -/
theorem claim_C10_witness :
    Value.decodeFromSlice ([7] ++ [9]) [.u32] = .ok [.u32 7] ∧
    Value.decodeFromSlice [3] [] = .ok [] :=
  ⟨claim_C10.1 [.u32] [7] [9] [.u32 7] rfl, claim_C10.2 [3]⟩

/-! ## Typing lemmas: decoded values carry the requested types -/

theorem decodeLoop_typing {d : Nat → Except DecodeError (Value × Nat)} {ty : Ty}
    (hd : ∀ p v c, d p = .ok (v, c) → v.typeOf = ty) :
    ∀ (n pos : Nat) (vs : List Value) (c : Nat),
      decodeLoop d n pos = .ok (vs, c) → vs.length = n ∧ ∀ u ∈ vs, u.typeOf = ty := by
  intro n
  induction n with
  | zero =>
    intro pos vs c h
    cases h
    exact ⟨rfl, by intro u hu; cases hu⟩
  | succ n ih =>
    intro pos vs c h
    rw [decodeLoop] at h
    cases h1 : d pos with
    | error e => rw [h1, error_bind] at h; cases h
    | ok r1 =>
      rw [h1, ok_bind] at h
      cases h2 : decodeLoop d n (pos + r1.2) with
      | error e => rw [h2, error_bind] at h; cases h
      | ok r2 =>
        rw [h2, ok_bind] at h
        cases h
        obtain ⟨hlen, hmem⟩ := ih _ _ _ h2
        refine ⟨by simp [hlen], ?_⟩
        intro u hu
        rcases List.mem_cons.mp hu with hu | hu
        · cases hu; exact hd pos r1.1 r1.2 h1
        · exact hmem u hu

theorem decode_typeOf (bs : List Nat) :
    ∀ (ty : Ty) (base pos : Nat),
      ∀ v c, Value.decode bs ty base pos = .ok (v, c) → v.typeOf = ty := by
  refine Value.decode.induct bs
    (fun ty base pos => ∀ v c, Value.decode bs ty base pos = .ok (v, c) → v.typeOf = ty)
    (fun ms base pos => ∀ items c, Value.decodeTuple bs ms base pos = .ok (items, c) →
      Value.typeOfItems items = ms)
    ?_ ?_ ?_ ?_ ?_ ?_ ?_ ?_ ?_ ?_ ?_ ?_
  · intro base pos v c h
    rw [Value.decode] at h
    rcases (map_ok_iff _ _ _).mp h with ⟨w, hw, hf⟩
    cases hf
    rfl
  · intro base pos v c h
    rw [Value.decode] at h
    rcases (map_ok_iff _ _ _).mp h with ⟨w, hw, hf⟩
    cases hf
    rfl
  · intro base pos v c h
    rw [Value.decode] at h
    rcases (map_ok_iff _ _ _).mp h with ⟨s, hs, hf⟩
    cases hf
    rfl
  · intro base pos v c h
    rw [Value.decode] at h
    rcases (map_ok_iff _ _ _).mp h with ⟨s, hs, hf⟩
    cases hf
    rfl
  · intro base pos v c h
    rw [Value.decode] at h
    rcases (map_ok_iff _ _ _).mp h with ⟨w, hw, hf⟩
    cases hf
    rfl
  · intro ty n base pos ih v c h
    rw [Value.decode] at h
    rcases (map_ok_iff _ _ _).mp h with ⟨lr, hl, hf⟩
    cases hf
    obtain ⟨hlen, _⟩ :=
      decodeLoop_typing (fun p v c hp => ih p v c hp) n pos lr.1 lr.2 hl
    simp [Value.typeOf, hlen]
  · intro base pos v c h
    rw [Value.decode] at h
    cases hfld : decodeFields bs (base + pos) with
    | error e => rw [hfld, error_bind] at h; cases h
    | ok fr =>
      rw [hfld, ok_bind] at h
      cases hU : fromUtf8 (fr.1.map (fun b => b % 256)) with
      | error e => rw [hU, error_bind] at h; cases h
      | ok s => rw [hU, ok_bind] at h; cases h; rfl
  · intro base pos v c h
    rw [Value.decode] at h
    rcases (map_ok_iff _ _ _).mp h with ⟨fr, hfld, hf⟩
    cases hf
    rfl
  · intro ty base pos ih v c h
    rw [Value.decode] at h
    cases hw : word? bs (base + pos) with
    | error e => rw [hw, error_bind] at h; cases h
    | ok len =>
      rw [hw, ok_bind] at h
      rcases (map_ok_iff _ _ _).mp h with ⟨lr, hl, hf⟩
      cases hf
      rfl
  · intro members base pos ih v c h
    rw [Value.decode] at h
    rcases (map_ok_iff _ _ _).mp h with ⟨tr, ht, hf⟩
    cases hf
    simp [Value.typeOf, ih tr.1 tr.2 ht]
  · intro base pos items c h
    cases h
    rfl
  · intro m rest base pos ih1 ih2 items c h
    rw [Value.decodeTuple] at h
    cases h1 : Value.decode bs m.2 base pos with
    | error e => rw [h1, error_bind] at h; cases h
    | ok r1 =>
      rw [h1, ok_bind] at h
      cases h2 : Value.decodeTuple bs rest base (pos + r1.2) with
      | error e => rw [h2, error_bind] at h; cases h
      | ok r2 =>
        rw [h2, ok_bind] at h
        cases h
        simp [Value.typeOfItems, ih1 r1.1 r1.2 h1, ih2 r1 r2.1 r2.2 h2]

theorem decodeTuple_typing (bs : List Nat) :
    ∀ (ms : List (String × Ty)) (base pos : Nat) (items : List (String × Value)) (c : Nat),
      Value.decodeTuple bs ms base pos = .ok (items, c) → Value.typeOfItems items = ms := by
  intro ms
  induction ms with
  | nil =>
    intro base pos items c h
    cases h
    rfl
  | cons m rest ih =>
    intro base pos items c h
    rw [Value.decodeTuple] at h
    cases h1 : Value.decode bs m.2 base pos with
    | error e => rw [h1, error_bind] at h; cases h
    | ok r1 =>
      rw [h1, ok_bind] at h
      cases h2 : Value.decodeTuple bs rest base (pos + r1.2) with
      | error e => rw [h2, error_bind] at h; cases h
      | ok r2 =>
        rw [h2, ok_bind] at h
        cases h
        simp [Value.typeOfItems, decode_typeOf bs m.2 base pos r1.1 r1.2 h1,
          ih base (pos + r1.2) r2.1 r2.2 h2]

theorem decodeSeq_typing (bs : List Nat) :
    ∀ (tys : List Ty) (pos : Nat) (vs : List Value),
      Value.decodeSeq bs tys pos = .ok vs → vs.map Value.typeOf = tys := by
  intro tys
  induction tys with
  | nil =>
    intro pos vs h
    cases h
    rfl
  | cons ty rest ih =>
    intro pos vs h
    rw [Value.decodeSeq] at h
    cases h1 : Value.decode bs ty 0 pos with
    | error e => rw [h1, error_bind] at h; cases h
    | ok r1 =>
      rw [h1, ok_bind] at h
      cases h2 : Value.decodeSeq bs rest (pos + r1.2) with
      | error e => rw [h2, error_bind] at h; cases h
      | ok vs2 =>
        rw [h2, ok_bind] at h
        cases h
        simp [decode_typeOf bs ty 0 pos r1.1 r1.2 h1, ih (pos + r1.2) vs2 h2]

/-- C9: a successful `decode_from_slice` returns one value per requested type
with matching `type_of`; a `FixedArray(T, n)` request produces a fixed
array of exactly `n` elements each of type `T`; an `Array(T)` request
produces an array value of element type `T` whose elements all have type
`T`; a `Tuple` request preserves the declared member names, order and
types. -/
theorem claim_C9 :
    (∀ (bs : List Nat) (tys : List Ty) (vs : List Value),
      Value.decodeFromSlice bs tys = .ok vs → vs.map Value.typeOf = tys) ∧
    (∀ (bs : List Nat) (ty : Ty) (n base pos : Nat) (v : Value) (c : Nat),
      Value.decode bs (.fixedArray ty n) base pos = .ok (v, c) →
      ∃ es, v = .fixedArray es ty ∧ es.length = n ∧ ∀ u ∈ es, u.typeOf = ty) ∧
    (∀ (bs : List Nat) (ty : Ty) (base pos : Nat) (v : Value) (c : Nat),
      Value.decode bs (.array ty) base pos = .ok (v, c) →
      ∃ es, v = .array es ty ∧ ∀ u ∈ es, u.typeOf = ty) ∧
    (∀ (bs : List Nat) (ms : List (String × Ty)) (base pos : Nat) (v : Value) (c : Nat),
      Value.decode bs (.tuple ms) base pos = .ok (v, c) →
      ∃ items, v = .tuple items ∧ Value.typeOfItems items = ms) := by
  refine ⟨fun bs tys vs h => decodeSeq_typing bs tys 0 vs h, ?_, ?_, ?_⟩
  · intro bs ty n base pos v c h
    rw [Value.decode] at h
    rcases (map_ok_iff _ _ _).mp h with ⟨lr, hl, hf⟩
    cases hf
    obtain ⟨hlen, hmem⟩ :=
      decodeLoop_typing (fun p v c hp => decode_typeOf bs ty base p v c hp) n pos lr.1 lr.2 hl
    exact ⟨lr.1, rfl, hlen, hmem⟩
  · intro bs ty base pos v c h
    rw [Value.decode] at h
    cases hw : word? bs (base + pos) with
    | error e => rw [hw, error_bind] at h; cases h
    | ok len =>
      rw [hw, ok_bind] at h
      rcases (map_ok_iff _ _ _).mp h with ⟨lr, hl, hf⟩
      cases hf
      obtain ⟨_, hmem⟩ :=
        decodeLoop_typing
          (fun p v c hp => decode_typeOf bs ty (base + pos + 1) p v c hp) len 0 lr.1 lr.2 hl
      exact ⟨lr.1, rfl, hmem⟩
  · intro bs ms base pos v c h
    rw [Value.decode] at h
    rcases (map_ok_iff _ _ _).mp h with ⟨tr, ht, hf⟩
    cases hf
    exact ⟨tr.1, rfl, decodeTuple_typing bs ms base pos tr.1 tr.2 ht⟩

/-- C9 witness: decoding `[1, 0]` as `[U32, Bool]` yields values typed
`[U32, Bool]`, and decoding `[5, 6]` as `FixedArray(U32, 2)` yields a
fixed array of two `U32` elements. -/
theorem claim_C9_witness :
    ([Value.u32 1, Value.bool false].map Value.typeOf = [Ty.u32, Ty.bool]) ∧
    (∃ es, Value.fixedArray [Value.u32 5, Value.u32 6] .u32 = .fixedArray es .u32 ∧
      es.length = 2 ∧ ∀ u ∈ es, u.typeOf = .u32) :=
  ⟨claim_C9.1 [1, 0] [.u32, .bool] [Value.u32 1, Value.bool false] rfl,
   claim_C9.2.1 [5, 6] .u32 2 0 0 (.fixedArray [Value.u32 5, Value.u32 6] .u32) 2 rfl⟩

/-! ## Event-decoding lemmas: narrow indexed scalars come from the last
topic word -/

theorem countIndexed_cons_true {x : Param} {l : List Param}
    (hx : x.indexed.getD false = true) :
    countIndexed (x :: l) = countIndexed l + 1 := by
  simp [countIndexed, List.filter_cons, hx]

theorem countIndexed_cons_false {x : Param} {l : List Param}
    (hx : x.indexed.getD false = false) :
    countIndexed (x :: l) = countIndexed l := by
  simp [countIndexed, List.filter_cons, hx]

theorem decodeInputsLoop_cons (input : Param) (rest : List Param)
    (topicsQ : List FixedArray4) (dataQ : List Value) :
    Event.decodeInputsLoop (input :: rest) topicsQ dataQ =
      (if input.indexed.getD false then
        match topicsQ with
        | [] => .error .insufficientTopics
        | val :: topicsRest => do
          let v ← Event.decodeTopicValue input val
          let tail ← Event.decodeInputsLoop rest topicsRest dataQ
          .ok ((input, v) :: tail)
      else
        match dataQ with
        | [] => .error .insufficientData
        | v :: dataRest => do
          let tail ← Event.decodeInputsLoop rest topicsQ dataRest
          .ok ((input, v) :: tail)) := rfl

theorem decodeTopicValue_narrow (p : Param) (val : FixedArray4)
    (hn : p.type_.isNarrowScalar = true) :
    Event.decodeTopicValue p val = .ok (narrowScalarOfWord p.type_ val.w3) := by
  rcases p with ⟨name, ty, idx⟩
  cases ty <;> first | rfl | simp [Ty.isNarrowScalar] at hn

theorem map_id_ok {ε α : Type} {e : Except ε α} {b : α}
    (h : e.map (fun x => x) = .ok b) : e = .ok b := by
  cases e with
  | error a => cases h
  | ok a => simpa [Except.map] using h

theorem stripEventTopic_ok {a : Bool} {topics tq : List FixedArray4}
    (h : Event.stripEventTopic a topics = .ok tq) :
    tq = if a then topics else topics.tail := by
  cases a with
  | true => cases h; rfl
  | false =>
    rw [Event.stripEventTopic.eq_def, if_neg (by simp)] at h
    cases topics with
    | nil => cases h
    | cons t0 rest => cases h; rfl

theorem decodeInputsLoop_narrow :
    ∀ (inputs : List Param) (topicsQ : List FixedArray4) (dataQ : List Value)
      (res : List (Param × Value)),
      Event.decodeInputsLoop inputs topicsQ dataQ = .ok res →
      ∀ (i : Nat) (p : Param), inputs.get? i = some p → p.indexed.getD false = true →
        p.type_.isNarrowScalar = true →
        ∃ slot, topicsQ.get? (countIndexed (inputs.take i)) = some slot ∧
          res.get? i = some (p, narrowScalarOfWord p.type_ slot.w3) := by
  intro inputs
  induction inputs with
  | nil =>
    intro topicsQ dataQ res h i p hp
    cases hp
  | cons input rest ih =>
    intro topicsQ dataQ res h i p hp hidx hnarrow
    rw [decodeInputsLoop_cons] at h
    by_cases hcond : input.indexed.getD false = true
    · rw [if_pos hcond] at h
      cases topicsQ with
      | nil => cases h
      | cons val topicsRest =>
        replace h : (Event.decodeTopicValue input val >>= fun v =>
            Event.decodeInputsLoop rest topicsRest dataQ >>= fun tail =>
            Except.ok ((input, v) :: tail)) = Except.ok res := h
        cases hv : Event.decodeTopicValue input val with
        | error e => rw [hv, error_bind] at h; cases h
        | ok v =>
          rw [hv, ok_bind] at h
          cases htail : Event.decodeInputsLoop rest topicsRest dataQ with
          | error e => rw [htail, error_bind] at h; cases h
          | ok tail =>
            rw [htail, ok_bind] at h
            cases h
            cases i with
            | zero =>
              rw [List.get?_cons_zero] at hp
              injection hp with hip
              subst hip
              refine ⟨val, by simp [countIndexed], ?_⟩
              rw [decodeTopicValue_narrow input val hnarrow] at hv
              cases hv
              rfl
            | succ j =>
              rw [List.get?_cons_succ] at hp
              obtain ⟨slot, hslot, hres⟩ :=
                ih topicsRest dataQ tail htail j p hp hidx hnarrow
              refine ⟨slot, ?_, hres⟩
              rw [List.take_succ_cons, countIndexed_cons_true hcond]
              simpa using hslot
    · rw [if_neg hcond] at h
      rw [Bool.not_eq_true] at hcond
      cases dataQ with
      | nil => cases h
      | cons v dataRest =>
        replace h : (Event.decodeInputsLoop rest topicsQ dataRest >>= fun tail =>
            Except.ok ((input, v) :: tail)) = Except.ok res := h
        cases htail : Event.decodeInputsLoop rest topicsQ dataRest with
        | error e => rw [htail, error_bind] at h; cases h
        | ok tail =>
          rw [htail, ok_bind] at h
          cases h
          cases i with
          | zero =>
            rw [List.get?_cons_zero] at hp
            injection hp with hip
            subst hip
            rw [hcond] at hidx
            cases hidx
          | succ j =>
            rw [List.get?_cons_succ] at hp
            obtain ⟨slot, hslot, hres⟩ := ih topicsQ dataRest tail htail j p hp hidx hnarrow
            refine ⟨slot, ?_, hres⟩
            rw [List.take_succ_cons, countIndexed_cons_false hcond]
            exact hslot

/-- C3: in `decode_data_from_slice`, every indexed input declared with a
narrow scalar type (`U32`, `Bool`, `Field`) is reconstructed from only the
last (4th) word of its 4-word topic slot, decoded as that scalar, and the
concrete event scenario decodes as the claim states, pairing values with
the declared inputs in declared order. -/
theorem claim_C3 :
    (∀ (e : Event) (topics : List FixedArray4) (data : List Nat) (res : DecodedParams),
      e.decodeDataFromSlice topics data = .ok res →
      ∀ (i : Nat) (p : Param), e.inputs.get? i = some p →
        p.indexed.getD false = true → p.type_.isNarrowScalar = true →
        ∃ slot,
          (if e.anonymous then topics else topics.tail).get?
            (countIndexed (e.inputs.take i)) = some slot ∧
          res.get? i = some (p, narrowScalarOfWord p.type_ slot.w3)) ∧
    Event.decodeDataFromSlice evtTest topicsTest [1, 2, 3, 97, 98, 99] =
      .ok [(paramX, .u32 1), (paramY, .u32 10), (paramX1, .u32 2), (paramY1, .u32 11),
           (paramS, .string [97, 98, 99])] := by
  constructor
  · intro e topics data res h i p hp hidx hnarrow
    rw [Event.decodeDataFromSlice.eq_def] at h
    split at h
    next heq => cases h
    next topicsQ heq =>
      split at h
      next heq2 => cases h
      next dataQ heq2 =>
        have hl := map_id_ok h
        rw [← stripEventTopic_ok heq]
        exact decodeInputsLoop_narrow e.inputs topicsQ dataQ res hl i p hp hidx hnarrow
  · rfl

/-- C3 witness: in the concrete scenario, the indexed input `y` (declared at
position 1) is recovered from the last word of the first stripped topic
slot, whose value is 10. -/
theorem claim_C3_witness :
    ∃ slot,
      (if evtTest.anonymous then topicsTest else topicsTest.tail).get?
        (countIndexed (evtTest.inputs.take 1)) = some slot ∧
      ([(paramX, Value.u32 1), (paramY, .u32 10), (paramX1, .u32 2), (paramY1, .u32 11),
        (paramS, .string [97, 98, 99])] : DecodedParams).get? 1 =
        some (paramY, narrowScalarOfWord paramY.type_ slot.w3) :=
  claim_C3.1 evtTest topicsTest [1, 2, 3, 97, 98, 99] _ claim_C3.2 1 paramY rfl rfl rfl

end OlaAbi
